import Mathlib

/-!
Verification of the editing core of the `dira` terminal text editor
(`src/main.c`): gap buffer, coordinate mapper, undo/redo history engine,
selection/clipboard, and the highlight classifier.

Each C function is shallowly embedded as an executable Lean definition of
the same name.  C `int` values are modelled as `Int` where the source can
receive arbitrary (possibly negative) values, and as `Nat` where the
source maintains non-negativity.  The raw `char` allocation of capacity
`cap` is modelled as a `List Char` of length `cap`; `memmove`/`memcpy`
become explicit `take`/`drop` splicing.  The global gap buffer `g` and
editor state `E` of the C program are passed explicitly.
-/

set_option linter.unusedVariables false

/-- The C `'\0'` byte. -/
def nullChar : Char := Char.ofNat 0

/-- `memmove(l + dst, l + src, n)` on a buffer modelled as a list:
positions `[dst, dst+n)` receive the bytes previously at `[src, src+n)`,
all other positions keep their old contents. -/
def copyWithin (l : List Char) (dst src n : Nat) : List Char :=
  l.take dst ++ (l.drop src).take n ++ l.drop (dst + n)

/-- `struct gapbuf`: one contiguous allocation `buf` of capacity `cap`
holding a filled prefix `[0, gap_start)`, the gap `[gap_start, gap_end)`,
and a filled suffix `[gap_end, cap)`. -/
structure gapbuf where
  buf : List Char
  cap : Nat
  gap_start : Nat
  gap_end : Nat
deriving DecidableEq

/-- `gap_init`: fresh buffer of capacity `initial_cap` (defaulting to 1024
when the requested capacity is not positive); the gap spans everything.
The malloc'd bytes are uninitialised; we model them as `nullChar`. -/
def gap_init (initial_cap : Int) : gapbuf :=
  let cap : Nat := if 0 < initial_cap then initial_cap.toNat else 1024
  { buf := List.replicate cap nullChar, cap := cap, gap_start := 0, gap_end := cap }

/-- `gap_length`: logical length `L = cap - (gap_end - gap_start)`. -/
def gap_length (g : gapbuf) : Nat := g.cap - (g.gap_end - g.gap_start)

/-- `gap_move`: clamp `pos` into `[0, L]`, then relocate the gap so that
`gap_start = pos`, moving the intervening bytes across the gap with
`memmove` exactly as the C source does. -/
def gap_move (g : gapbuf) (pos : Int) : gapbuf :=
  let pos1 : Int := if pos < 0 then 0 else pos
  let len : Nat := gap_length g
  let pos2 : Int := if (len : Int) < pos1 then (len : Int) else pos1
  let p : Nat := pos2.toNat
  if p < g.gap_start then
    let move_len := g.gap_start - p
    { buf := copyWithin g.buf (g.gap_end - move_len) p move_len,
      cap := g.cap, gap_start := p, gap_end := g.gap_end - move_len }
  else if g.gap_start < p then
    let move_len := p - g.gap_start
    { buf := copyWithin g.buf g.gap_start g.gap_end move_len,
      cap := g.cap, gap_start := g.gap_start + move_len,
      gap_end := g.gap_end + move_len }
  else g

/-- `gap_insert`: if the gap is empty first grow the allocation to
`cap + cap/2`, copying prefix and suffix to the two ends (the fresh middle
bytes are uninitialised, modelled as `nullChar`); then write `c` at
`gap_start` and advance `gap_start`. -/
def gap_insert (g : gapbuf) (c : Char) : gapbuf :=
  let g1 : gapbuf :=
    if g.gap_start = g.gap_end then
      let gap_size := g.cap / 2
      let newcap := g.cap + gap_size
      let pre := g.gap_start
      let suf := g.cap - g.gap_end
      { buf := g.buf.take pre ++ List.replicate (newcap - pre - suf) nullChar ++
               g.buf.drop g.gap_end,
        cap := newcap, gap_start := g.gap_start, gap_end := newcap - suf }
    else g
  { buf := g1.buf.set g1.gap_start c, cap := g1.cap,
    gap_start := g1.gap_start + 1, gap_end := g1.gap_end }

/-- `gap_backspace`: remove the byte before the gap by retracting
`gap_start`; fails (returns `false`, buffer untouched) when `gap_start = 0`. -/
def gap_backspace (g : gapbuf) : Bool × gapbuf :=
  if g.gap_start = 0 then (false, g)
  else (true, { g with gap_start := g.gap_start - 1 })

/-- `gap_delete`: remove the byte after the gap by advancing `gap_end`;
fails when `gap_end = cap`. -/
def gap_delete (g : gapbuf) : Bool × gapbuf :=
  if g.gap_end = g.cap then (false, g)
  else (true, { g with gap_end := g.gap_end + 1 })

/-- `gap_get` (materialize): if the destination is smaller than the logical
length return `-1` and leave the destination untouched; otherwise copy the
prefix then the suffix into the destination (bytes past the copied region
keep their old contents) and return the logical length. -/
def gap_get (g : gapbuf) (out : List Char) : Int × List Char :=
  let len := gap_length g
  if out.length < len then (-1, out)
  else
    let pre := g.buf.take g.gap_start
    let suf := g.buf.drop g.gap_end
    ((len : Int), pre ++ suf ++ out.drop (pre.length + suf.length))

/-- `gap_char_at`: byte at logical offset `pos`, `'\0'` when out of range. -/
def gap_char_at (g : gapbuf) (pos : Int) : Char :=
  if pos < 0 ∨ (gap_length g : Int) ≤ pos then nullChar
  else if pos < (g.gap_start : Int) then g.buf.getD pos.toNat nullChar
  else g.buf.getD (g.gap_end + (pos.toNat - g.gap_start)) nullChar

/-- The logical byte sequence of the buffer: filled prefix then filled
suffix (exactly what `gap_get` materialises). -/
def gap_content (g : gapbuf) : List Char :=
  g.buf.take g.gap_start ++ g.buf.drop g.gap_end

/-- Structural well-formedness of a gap buffer: the invariant
`0 ≤ gap_start ≤ gap_end ≤ cap` from the spec, the modelling fact that the
allocation really has `cap` bytes, and `2 ≤ cap` (every buffer the program
ever builds starts from `gap_init` with capacity 1024 and capacities only
grow, so this holds of every reachable state; a capacity-1 buffer would
overflow in `gap_insert`'s growth path). -/
def gap_wf (g : gapbuf) : Prop :=
  g.gap_start ≤ g.gap_end ∧ g.gap_end ≤ g.cap ∧ g.buf.length = g.cap ∧ 2 ≤ g.cap

instance (g : gapbuf) : Decidable (gap_wf g) := by
  unfold gap_wf; exact inferInstance

/- -------- cursor/position conversion -------- -/

/-- `pos_to_rowcol`: scan offsets `[0, pos)`, counting line feeds into the
row and bytes since the last line feed into the column. -/
def pos_to_rowcol (g : gapbuf) (pos : Nat) : Nat × Nat :=
  (List.range pos).foldl
    (fun rc (i : Nat) =>
      if gap_char_at g (i : Int) = '\n' then (rc.1 + 1, 0) else (rc.1, rc.2 + 1))
    (0, 0)

/-- First loop of `rowcol_to_pos`: advance `pos` (tracking `cur_row`,
`cur_col`) while `pos < len` and `cur_row < row`. -/
def r2p_loop1 (g : gapbuf) (row : Int) (pos cur_row cur_col : Nat) : Nat × Nat × Nat :=
  if h : pos < gap_length g ∧ (cur_row : Int) < row then
    if gap_char_at g (pos : Int) = '\n' then r2p_loop1 g row (pos + 1) (cur_row + 1) 0
    else r2p_loop1 g row (pos + 1) cur_row (cur_col + 1)
  else (pos, cur_row, cur_col)
termination_by gap_length g - pos
decreasing_by all_goals omega

/-- Second loop of `rowcol_to_pos`: advance while `pos < len` and
`cur_col < col`, stopping at a line feed. -/
def r2p_loop2 (g : gapbuf) (col : Int) (pos cur_col : Nat) : Nat :=
  if h : pos < gap_length g ∧ (cur_col : Int) < col then
    if gap_char_at g (pos : Int) = '\n' then pos
    else r2p_loop2 g col (pos + 1) (cur_col + 1)
  else pos
termination_by gap_length g - pos
decreasing_by all_goals omega

/-- `rowcol_to_pos`: scan forward to row `row`, then within the row up to
column `col` or the next line feed. -/
def rowcol_to_pos (g : gapbuf) (row col : Int) : Nat :=
  let r := r2p_loop1 g row 0 0 0
  r2p_loop2 g col r.1 r.2.2

/-- `count_rows`: `1 +` the number of line feeds in the buffer. -/
def count_rows (g : gapbuf) : Nat :=
  (List.range (gap_length g)).foldl
    (fun rows (i : Nat) => if gap_char_at g (i : Int) = '\n' then rows + 1 else rows) 1

/- -------- undo/redo system -------- -/

/-- `enum editType`. -/
inductive editType where
  | EDIT_INSERT
  | EDIT_DELETE
  | EDIT_INSERT_NEWLINE
  | EDIT_DELETE_NEWLINE
deriving DecidableEq

/-- `struct edit`: one history record (the linked-list pointers of the C
struct are represented by the position in the containing list). -/
structure edit where
  type : editType
  pos : Int
  ch : Char
deriving DecidableEq

/-- `struct editHistory`: undo and redo stacks (head = most recent) and the
unused `grouping` scaffolding field. -/
structure editHistory where
  undoStack : List edit
  redoStack : List edit
  grouping : Int
deriving DecidableEq

/-- `history_init`. -/
def history_init : editHistory := { undoStack := [], redoStack := [], grouping := 0 }

/-- `history_push`: prepend a fresh record to the undo stack and clear the
redo stack. -/
def history_push (h : editHistory) (type : editType) (pos : Int) (ch : Char) : editHistory :=
  { undoStack := { type := type, pos := pos, ch := ch } :: h.undoStack,
    redoStack := [], grouping := h.grouping }

/-- `history_undo`: pop the top undo record, move it to the redo stack,
reposition the buffer at the record's position and apply the inverse
primitive.  Returns `false` (state unchanged) on an empty undo stack. -/
def history_undo (h : editHistory) (g : gapbuf) : Bool × editHistory × gapbuf :=
  match h.undoStack with
  | [] => (false, h, g)
  | e :: rest =>
    let g1 := gap_move g e.pos
    let g2 := match e.type with
      | editType.EDIT_INSERT => (gap_delete g1).2
      | editType.EDIT_DELETE => gap_insert g1 e.ch
      | editType.EDIT_INSERT_NEWLINE => (gap_delete g1).2
      | editType.EDIT_DELETE_NEWLINE => gap_insert g1 '\n'
    (true, { undoStack := rest, redoStack := e :: h.redoStack, grouping := h.grouping }, g2)

/-- `history_redo`: pop the top redo record, move it back to the undo
stack, reposition and reapply the original primitive.  Returns `false`
(state unchanged) on an empty redo stack. -/
def history_redo (h : editHistory) (g : gapbuf) : Bool × editHistory × gapbuf :=
  match h.redoStack with
  | [] => (false, h, g)
  | e :: rest =>
    let g1 := gap_move g e.pos
    let g2 := match e.type with
      | editType.EDIT_INSERT => gap_insert g1 e.ch
      | editType.EDIT_DELETE => (gap_delete g1).2
      | editType.EDIT_INSERT_NEWLINE => gap_insert g1 '\n'
      | editType.EDIT_DELETE_NEWLINE => (gap_delete g1).2
    (true, { undoStack := e :: h.undoStack, redoStack := rest, grouping := h.grouping }, g2)

/-- `n` successive calls to `history_undo` (Ctrl-Z pressed `n` times),
threading history and buffer. -/
def undoN : Nat → editHistory × gapbuf → editHistory × gapbuf
  | 0, s => s
  | n + 1, s => undoN n (history_undo s.1 s.2).2

/-- `n` successive calls to `history_redo`. -/
def redoN : Nat → editHistory × gapbuf → editHistory × gapbuf
  | 0, s => s
  | n + 1, s => redoN n (history_redo s.1 s.2).2

/- -------- selection -------- -/

/-- `struct selection`. -/
structure selection where
  active : Bool
  start_row : Int
  start_col : Int
  end_row : Int
  end_col : Int
deriving DecidableEq

/-- `selection_start` (the spec's `begin`): anchor = cursor = `(row, col)`. -/
def selection_start (sel : selection) (row col : Int) : selection :=
  { active := true, start_row := row, start_col := col, end_row := row, end_col := col }

/-- `selection_update` (the spec's `extend`): move the cursor end only. -/
def selection_update (sel : selection) (row col : Int) : selection :=
  { sel with end_row := row, end_col := col }

/-- `selection_clear`. -/
def selection_clear (sel : selection) : selection := { sel with active := false }

/-- The normalisation swap inside `selection_contains` / `clipboard_copy`:
ensure `(start_row, start_col)` is lexicographically not after
`(end_row, end_col)`; result `(sr, sc, er, ec)`. -/
def sel_normalize (sr sc er ec : Int) : Int × Int × Int × Int :=
  if er < sr ∨ (sr = er ∧ ec < sc) then (er, ec, sr, sc) else (sr, sc, er, ec)

/-- `selection_contains`: half-open containment test over the normalised
range, exactly as in the C source. -/
def selection_contains (sel : selection) (row col : Int) : Bool :=
  if sel.active = false then false
  else
    let n := sel_normalize sel.start_row sel.start_col sel.end_row sel.end_col
    let sr := n.1
    let sc := n.2.1
    let er := n.2.2.1
    let ec := n.2.2.2
    if row < sr ∨ er < row then false
    else if row = sr ∧ row = er then decide (sc ≤ col ∧ col < ec)
    else if row = sr then decide (sc ≤ col)
    else if row = er then decide (col < ec)
    else true

/- -------- syntax highlighting -------- -/

/-- `enum editorHighlight`. -/
inductive editorHighlight where
  | HL_NORMAL
  | HL_KEYWORD
  | HL_STRING
  | HL_COMMENT
  | HL_NUMBER
deriving DecidableEq

/-- `is_separator`: whitespace, NUL, or one of the fixed punctuation set. -/
def is_separator (c : Char) : Bool :=
  (c = ' ' || c = '\t' || c = '\n' || c = '\r' || c = Char.ofNat 11 || c = Char.ofNat 12) ||
  c = nullChar || ",.()+-/*=~%<>[];".toList.contains c

/-- The fixed keyword table of `get_highlight`. -/
def keywords : List (List Char) :=
  ["if", "else", "while", "for", "return", "int", "char", "void",
   "struct", "enum", "static", "const", "break", "continue", "switch",
   "case", "default", "sizeof", "typedef"].map String.toList

/-- The keyword loop of `get_highlight`: some keyword matches at `pos`,
bounded on both sides by separators (or the buffer ends). -/
def keyword_match (content : List Char) (pos : Nat) : Bool :=
  keywords.any fun kw =>
    decide (pos + kw.length ≤ content.length) &&
    decide ((content.drop pos).take kw.length = kw) &&
    (decide (content.length ≤ pos + kw.length) ||
       is_separator (content.getD (pos + kw.length) nullChar)) &&
    (decide (pos = 0) || is_separator (content.getD (pos - 1) nullChar))

/-- `strrchr(filename, '.')`: the suffix of the name starting at the last
dot, if any. -/
def strrchr_dot : List Char → Option (List Char)
  | [] => none
  | c :: rest =>
    match strrchr_dot rest with
    | some s => some s
    | none => if c = '.' then some (c :: rest) else none

/-- The file-type test at the top of `get_highlight`: the extension (from
the last dot) is one of `.c`, `.h`, `.cpp`, `.cc`. -/
def filename_is_c (filename : Option (List Char)) : Bool :=
  match filename with
  | none => false
  | some f =>
    match strrchr_dot f with
    | none => false
    | some ext =>
      ext = ".c".toList || ext = ".h".toList || ext = ".cpp".toList || ext = ".cc".toList

/-- `get_highlight`: classify the byte at `pos` of a materialised snapshot.
The C function keeps its string toggle in a hidden `static int in_string`;
here that running state is passed in and the updated value returned, so a
left-to-right pass is the sequential threading of this function. -/
def get_highlight (content : List Char) (pos : Nat) (filename : Option (List Char))
    (in_string : Bool) : editorHighlight × Bool :=
  if content.length ≤ pos then (editorHighlight.HL_NORMAL, in_string)
  else if filename_is_c filename = false then (editorHighlight.HL_NORMAL, in_string)
  else
    let c := content.getD pos nullChar
    if pos + 1 < content.length ∧ content.getD pos nullChar = '/' ∧
        content.getD (pos + 1) nullChar = '/' then
      (editorHighlight.HL_COMMENT, in_string)
    else if c.isDigit ∧ (pos = 0 ∨ is_separator (content.getD (pos - 1) nullChar)) then
      (editorHighlight.HL_NUMBER, in_string)
    else
      let in_string1 := if c = '"' then !in_string else in_string
      if in_string1 then (editorHighlight.HL_STRING, in_string1)
      else if keyword_match content pos then (editorHighlight.HL_KEYWORD, in_string1)
      else (editorHighlight.HL_NORMAL, in_string1)

/- -------- editor state and operations -------- -/

/-- The fields of `struct editorConfig` (plus the global gap buffer `g`)
that the editing core manipulates. -/
structure EditorState where
  cx : Int
  cy : Int
  g : gapbuf
  history : editHistory
  clip : List Char
  dirty : Bool
deriving DecidableEq

/-- `editorInsertChar`: resolve the cursor to a logical position, move the
gap there, insert, push one `EDIT_INSERT` record, and advance the cursor. -/
def editorInsertChar (E : EditorState) (c : Char) : EditorState :=
  let pos := rowcol_to_pos E.g E.cy E.cx
  let g1 := gap_move E.g (pos : Int)
  let g2 := gap_insert g1 c
  { E with g := g2,
           history := history_push E.history editType.EDIT_INSERT (pos : Int) c,
           cx := E.cx + 1, dirty := true }

/-- `clipboard_paste`: no-op when the clipboard is empty; otherwise move
the gap to the cursor position and insert every clipboard byte in order,
pushing one `EDIT_INSERT` record per byte at consecutive positions.  (The
C source does not touch the cursor fields.) -/
def clipboard_paste (E : EditorState) : EditorState :=
  if E.clip.length = 0 then E
  else
    let pos := rowcol_to_pos E.g E.cy E.cx
    let g0 := gap_move E.g (pos : Int)
    let s := (List.range E.clip.length).foldl
      (fun (s : gapbuf × editHistory) i =>
        (gap_insert s.1 (E.clip.getD i nullChar),
         history_push s.2 editType.EDIT_INSERT ((pos : Int) + (i : Int))
           (E.clip.getD i nullChar)))
      (g0, E.history)
    { E with g := s.1, history := s.2, dirty := true }

/-- A sequence of single-character inserts, each performed via
`editorInsertChar` at a (possibly freshly moved) cursor position
`(cy, cx)`. -/
def applyInserts : EditorState → List (Int × Int × Char) → EditorState
  | E, [] => E
  | E, m :: rest =>
    applyInserts (editorInsertChar { E with cy := m.1, cx := m.2.1 } m.2.2) rest

/- -------- auxiliary specification-level definitions -------- -/

/-- A redo-stack script: `Replay l R l2` says that replaying the records of
`R` in order (head first), each an `EDIT_INSERT` of character `c` at a
position `p` valid for the current content, transforms logical content `l`
into `l2`. -/
inductive Replay : List Char → List edit → List Char → Prop where
  | nil (l : List Char) : Replay l [] l
  | cons (l : List Char) (p : Nat) (c : Char) (rs : List edit) (l2 : List Char)
      (hp : p ≤ l.length)
      (htail : Replay (l.take p ++ c :: l.drop p) rs l2) :
      Replay l ({ type := editType.EDIT_INSERT, pos := (p : Int), ch := c } :: rs) l2

/- -------- concrete states used by the witnesses -------- -/

/-- A well-formed buffer holding `"ab\ncd"` (gap at the end, no slack). -/
def gbuf_abncd : gapbuf :=
  { buf := "ab\ncd".toList, cap := 5, gap_start := 5, gap_end := 5 }

/-- A well-formed buffer holding `"ab"` (capacity 4, gap `[2, 4)`). -/
def gbuf_ab : gapbuf :=
  { buf := "abzz".toList, cap := 4, gap_start := 2, gap_end := 4 }

/-- A well-formed empty buffer (capacity 4). -/
def gbuf_empty : gapbuf :=
  { buf := "zzzz".toList, cap := 4, gap_start := 0, gap_end := 4 }

/-- An editor state over the empty buffer with a one-byte clipboard. -/
def est_paste : EditorState :=
  { cx := 0, cy := 0, g := gbuf_empty, history := history_init,
    clip := "x".toList, dirty := false }

/-- An editor state over the empty buffer with an empty clipboard. -/
def est_c1 : EditorState :=
  { cx := 0, cy := 0, g := gbuf_empty, history := history_init,
    clip := [], dirty := false }

/- -------- gap buffer lemmas -------- -/

theorem copyWithin_length (l : List Char) (dst src n : Nat)
    (hd : dst + n ≤ l.length) (hs : src + n ≤ l.length) :
    (copyWithin l dst src n).length = l.length := by
  unfold copyWithin
  simp only [List.length_append, List.length_take, List.length_drop]
  omega

theorem gap_content_length (g : gapbuf) (hw : gap_wf g) :
    (gap_content g).length = gap_length g := by
  obtain ⟨h1, h2, h3, h4⟩ := hw
  unfold gap_content gap_length
  simp only [List.length_append, List.length_take, List.length_drop]
  omega

theorem gap_move_eq_cases (g : gapbuf) (pos : Int) :
    ∃ p : Nat, (p : Int) = max 0 (min pos (gap_length g)) ∧ p ≤ gap_length g ∧
      gap_move g pos =
        (if p < g.gap_start then
          { buf := copyWithin g.buf (g.gap_end - (g.gap_start - p)) p (g.gap_start - p),
            cap := g.cap, gap_start := p,
            gap_end := g.gap_end - (g.gap_start - p) }
        else if g.gap_start < p then
          { buf := copyWithin g.buf g.gap_start g.gap_end (p - g.gap_start),
            cap := g.cap, gap_start := g.gap_start + (p - g.gap_start),
            gap_end := g.gap_end + (p - g.gap_start) }
        else g) := by
  refine ⟨(if (gap_length g : Int) < (if pos < 0 then 0 else pos) then (gap_length g : Int)
           else (if pos < 0 then 0 else pos)).toNat, ?_, ?_, rfl⟩
  · split_ifs <;> omega
  · split_ifs <;> omega

theorem gap_move_spec (g : gapbuf) (pos : Int) (hw : gap_wf g) :
    gap_wf (gap_move g pos) ∧
    gap_content (gap_move g pos) = gap_content g ∧
    (gap_move g pos).cap = g.cap ∧
    ((gap_move g pos).gap_start : Int) = max 0 (min pos (gap_length g)) ∧
    gap_length (gap_move g pos) = gap_length g := by
  obtain ⟨h1, h2, h3, h4⟩ := hw
  have hlg : gap_length g = g.cap - (g.gap_end - g.gap_start) := rfl
  obtain ⟨p, hpmax, hple, heq⟩ := gap_move_eq_cases g pos
  split_ifs at heq with hc1 hc2
  · -- p < gap_start : move bytes [p, gap_start) to the right end of the gap
    rw [heq]
    have hlen : (copyWithin g.buf (g.gap_end - (g.gap_start - p)) p (g.gap_start - p)).length
        = g.buf.length := copyWithin_length _ _ _ _ (by omega) (by omega)
    have hcontent :
        List.take p (copyWithin g.buf (g.gap_end - (g.gap_start - p)) p (g.gap_start - p)) ++
        List.drop (g.gap_end - (g.gap_start - p))
          (copyWithin g.buf (g.gap_end - (g.gap_start - p)) p (g.gap_start - p)) =
        gap_content g := by
      unfold copyWithin
      have hm1 : g.gap_end - (g.gap_start - p) + (g.gap_start - p) = g.gap_end := by omega
      rw [hm1, List.append_assoc]
      rw [List.take_append_of_le_length (by simp; omega),
          List.drop_left' (by simp; omega)]
      rw [List.take_take, min_eq_left (by omega)]
      rw [← List.append_assoc, ← List.take_add]
      have e1 : p + (g.gap_start - p) = g.gap_start := by omega
      rw [e1]
      rfl
    exact ⟨⟨(by omega : p ≤ g.gap_end - (g.gap_start - p)),
            by simpa using (by omega : g.gap_end - (g.gap_start - p) ≤ g.cap),
            hlen.trans h3, h4⟩,
           hcontent, rfl, by simp [gap_length] at hpmax ⊢; omega,
           by simp [gap_length]; omega⟩
  · -- gap_start < p : move bytes [gap_end, gap_end + (p - gap_start)) to before the gap
    rw [heq]
    have hlen : (copyWithin g.buf g.gap_start g.gap_end (p - g.gap_start)).length
        = g.buf.length := copyWithin_length _ _ _ _ (by omega) (by omega)
    have hcontent :
        List.take (g.gap_start + (p - g.gap_start))
          (copyWithin g.buf g.gap_start g.gap_end (p - g.gap_start)) ++
        List.drop (g.gap_end + (p - g.gap_start))
          (copyWithin g.buf g.gap_start g.gap_end (p - g.gap_start)) =
        gap_content g := by
      unfold copyWithin
      rw [List.take_append_of_le_length (by simp; omega),
          List.take_of_length_le (by simp; omega)]
      have e2 : g.gap_end + (p - g.gap_start) =
          (g.buf.take g.gap_start ++ (g.buf.drop g.gap_end).take (p - g.gap_start)).length +
          (g.gap_end - g.gap_start) := by simp; omega
      rw [e2, List.drop_append, List.drop_drop]
      have e3 : g.gap_start + (p - g.gap_start) + (g.gap_end - g.gap_start) =
          g.gap_end + (p - g.gap_start) := by omega
      rw [e3, List.append_assoc]
      have e4 : g.buf.drop (g.gap_end + (p - g.gap_start)) =
          (g.buf.drop g.gap_end).drop (p - g.gap_start) := by
        rw [List.drop_drop]
      rw [e4, List.take_append_drop]
      rfl
    exact ⟨⟨(by omega : g.gap_start + (p - g.gap_start) ≤ g.gap_end + (p - g.gap_start)),
            by simpa using (by omega : g.gap_end + (p - g.gap_start) ≤ g.cap),
            hlen.trans h3, h4⟩,
           hcontent, rfl, by simp [gap_length] at hpmax ⊢; omega,
           by simp [gap_length]; omega⟩
  · -- p = gap_start : nothing moves
    rw [heq]
    exact ⟨⟨h1, h2, h3, h4⟩, rfl, rfl, by simp [gap_length] at hpmax ⊢; omega, rfl⟩

theorem gap_content_take_start (g : gapbuf) (hw : gap_wf g) :
    (gap_content g).take g.gap_start = g.buf.take g.gap_start := by
  obtain ⟨h1, h2, h3, h4⟩ := hw
  unfold gap_content
  rw [List.take_append_of_le_length (by simp; omega), List.take_take, min_self]

theorem gap_content_drop_start (g : gapbuf) (hw : gap_wf g) :
    (gap_content g).drop g.gap_start = g.buf.drop g.gap_end := by
  obtain ⟨h1, h2, h3, h4⟩ := hw
  unfold gap_content
  rw [List.drop_left' (by simp; omega)]

theorem gap_insert_spec (g : gapbuf) (c : Char) (hw : gap_wf g) :
    gap_wf (gap_insert g c) ∧
    gap_content (gap_insert g c) =
      (gap_content g).take g.gap_start ++ c :: (gap_content g).drop g.gap_start ∧
    (gap_insert g c).gap_start = g.gap_start + 1 ∧
    gap_length (gap_insert g c) = gap_length g + 1 := by
  have hct := gap_content_take_start g hw
  have hcd := gap_content_drop_start g hw
  obtain ⟨h1, h2, h3, h4⟩ := hw
  by_cases hg : g.gap_start = g.gap_end
  · -- growth path: gap exhausted, reallocate to cap + cap/2
    obtain ⟨m', hm'⟩ : ∃ m', g.cap / 2 = m' + 1 := ⟨g.cap / 2 - 1, by omega⟩
    have hins : gap_insert g c =
        { buf := (g.buf.take g.gap_start ++
              List.replicate (g.cap + g.cap / 2 - g.gap_start - (g.cap - g.gap_end)) nullChar ++
              g.buf.drop g.gap_end).set g.gap_start c,
          cap := g.cap + g.cap / 2, gap_start := g.gap_start + 1,
          gap_end := g.cap + g.cap / 2 - (g.cap - g.gap_end) } := by
      unfold gap_insert
      rw [if_pos hg]
    have hk : g.cap + g.cap / 2 - g.gap_start - (g.cap - g.gap_end) = m' + 1 := by omega
    have hge' : g.cap + g.cap / 2 - (g.cap - g.gap_end) = g.gap_start + m' + 1 := by omega
    rw [hins, hk, hge', List.replicate_succ]
    have hA : (g.buf.take g.gap_start).length = g.gap_start := by simp; omega
    have hbuf1take : (g.buf.take g.gap_start ++
        (nullChar :: List.replicate m' nullChar) ++ g.buf.drop g.gap_end).take g.gap_start =
        g.buf.take g.gap_start := by
      rw [List.append_assoc,
          List.take_append_of_le_length (by rw [hA]),
          List.take_take, min_self]
    have hbuf1drop : (g.buf.take g.gap_start ++
        (nullChar :: List.replicate m' nullChar) ++ g.buf.drop g.gap_end).drop
          (g.gap_start + 1) =
        List.replicate m' nullChar ++ g.buf.drop g.gap_end := by
      rw [List.append_cons (g.buf.take g.gap_start) nullChar (List.replicate m' nullChar),
          List.append_assoc,
          List.drop_left' (by simp [hA])]
    have hset : (g.buf.take g.gap_start ++
        (nullChar :: List.replicate m' nullChar) ++ g.buf.drop g.gap_end).set g.gap_start c =
        g.buf.take g.gap_start ++ c ::
          (List.replicate m' nullChar ++ g.buf.drop g.gap_end) := by
      rw [List.set_eq_take_cons_drop c (by simp; omega), hbuf1take, hbuf1drop]
    rw [hset]
    refine ⟨⟨(by omega : g.gap_start + 1 ≤ g.gap_start + m' + 1),
             (by omega : g.gap_start + m' + 1 ≤ g.cap + g.cap / 2),
             by simp only [List.length_set, List.length_append, List.length_cons, hA,
               List.length_replicate, List.length_drop]; omega,
             (by omega : 2 ≤ g.cap + g.cap / 2)⟩, ?_, rfl, by simp [gap_length]; omega⟩
    show (g.buf.take g.gap_start ++ c ::
          (List.replicate m' nullChar ++ g.buf.drop g.gap_end)).take (g.gap_start + 1) ++
        (g.buf.take g.gap_start ++ c ::
          (List.replicate m' nullChar ++ g.buf.drop g.gap_end)).drop (g.gap_start + m' + 1) = _
    rw [hct, hcd]
    have htake : (g.buf.take g.gap_start ++ c ::
        (List.replicate m' nullChar ++ g.buf.drop g.gap_end)).take (g.gap_start + 1) =
        g.buf.take g.gap_start ++ [c] := by
      rw [List.take_append_eq_append_take, List.take_of_length_le (by rw [hA]; omega),
          show g.gap_start + 1 - (g.buf.take g.gap_start).length = 1 by rw [hA]; omega]
      simp
    have hdrop : (g.buf.take g.gap_start ++ c ::
        (List.replicate m' nullChar ++ g.buf.drop g.gap_end)).drop (g.gap_start + m' + 1) =
        g.buf.drop g.gap_end := by
      rw [List.append_cons, ← List.append_assoc,
          List.drop_left' (by simp [hA]; omega)]
    rw [htake, hdrop, List.append_assoc, List.singleton_append]
  · -- no growth: the gap is non-empty
    have hlt : g.gap_start < g.gap_end := by omega
    have hins : gap_insert g c =
        { buf := g.buf.set g.gap_start c, cap := g.cap,
          gap_start := g.gap_start + 1, gap_end := g.gap_end } := by
      unfold gap_insert
      rw [if_neg hg]
    have hset : g.buf.set g.gap_start c =
        g.buf.take g.gap_start ++ c :: g.buf.drop (g.gap_start + 1) :=
      List.set_eq_take_cons_drop c (by omega)
    rw [hins, hset]
    refine ⟨⟨(by omega : g.gap_start + 1 ≤ g.gap_end), h2, by simp; omega, h4⟩, ?_, rfl,
        by simp [gap_length]; omega⟩
    show (g.buf.take g.gap_start ++ c :: g.buf.drop (g.gap_start + 1)).take (g.gap_start + 1) ++
        (g.buf.take g.gap_start ++ c :: g.buf.drop (g.gap_start + 1)).drop g.gap_end = _
    rw [hct, hcd]
    have hA : (g.buf.take g.gap_start).length = g.gap_start := by simp; omega
    have htake : (g.buf.take g.gap_start ++ c :: g.buf.drop (g.gap_start + 1)).take
        (g.gap_start + 1) = g.buf.take g.gap_start ++ [c] := by
      rw [List.take_append_eq_append_take, List.take_of_length_le (by rw [hA]; omega),
          show g.gap_start + 1 - (g.buf.take g.gap_start).length = 1 by rw [hA]; omega]
      simp
    have hdrop : (g.buf.take g.gap_start ++ c :: g.buf.drop (g.gap_start + 1)).drop
        g.gap_end = g.buf.drop g.gap_end := by
      rw [List.append_cons,
          List.drop_append_eq_append_drop,
          List.drop_eq_nil_of_le (by simp [hA]; omega), List.nil_append,
          show g.gap_end - ((g.buf.take g.gap_start) ++ [c]).length = g.gap_end - g.gap_start - 1
            by simp [hA]; omega,
          List.drop_drop,
          show g.gap_start + 1 + (g.gap_end - g.gap_start - 1) = g.gap_end by omega]
    rw [htake, hdrop, List.append_assoc, List.singleton_append]

theorem gap_delete_spec (g : gapbuf) (hw : gap_wf g) :
    (g.gap_end = g.cap → gap_delete g = (false, g)) ∧
    (g.gap_end ≠ g.cap →
      (gap_delete g).1 = true ∧
      gap_wf (gap_delete g).2 ∧
      gap_content (gap_delete g).2 =
        (gap_content g).take g.gap_start ++ (gap_content g).drop (g.gap_start + 1) ∧
      (gap_delete g).2.gap_start = g.gap_start ∧
      gap_length (gap_delete g).2 = gap_length g - 1) := by
  have hct := gap_content_take_start g hw
  obtain ⟨h1, h2, h3, h4⟩ := hw
  constructor
  · intro h
    unfold gap_delete
    rw [if_pos h]
  · intro h
    have hdel : gap_delete g = (true, { g with gap_end := g.gap_end + 1 }) := by
      unfold gap_delete
      rw [if_neg h]
    have hA : (g.buf.take g.gap_start).length = g.gap_start := by simp; omega
    have hdropc : (gap_content g).drop (g.gap_start + 1) = g.buf.drop (g.gap_end + 1) := by
      unfold gap_content
      rw [List.drop_append_eq_append_drop,
          List.drop_eq_nil_of_le (by rw [hA]; omega), List.nil_append,
          show g.gap_start + 1 - (g.buf.take g.gap_start).length = 1 by rw [hA]; omega,
          List.drop_drop]
    rw [hdel]
    refine ⟨rfl, ⟨(by omega : g.gap_start ≤ g.gap_end + 1),
        (by omega : g.gap_end + 1 ≤ g.cap), h3, h4⟩,
        ?_, rfl, by simp [gap_length]; omega⟩
    show g.buf.take g.gap_start ++ g.buf.drop (g.gap_end + 1) = _
    rw [hct, hdropc]

theorem gap_backspace_spec (g : gapbuf) (hw : gap_wf g) :
    (g.gap_start = 0 → gap_backspace g = (false, g)) ∧
    (g.gap_start ≠ 0 →
      (gap_backspace g).1 = true ∧
      gap_wf (gap_backspace g).2 ∧
      gap_length (gap_backspace g).2 = gap_length g - 1) := by
  obtain ⟨h1, h2, h3, h4⟩ := hw
  constructor
  · intro h
    unfold gap_backspace
    rw [if_pos h]
  · intro h
    have hbs : gap_backspace g = (true, { g with gap_start := g.gap_start - 1 }) := by
      unfold gap_backspace
      rw [if_neg h]
    rw [hbs]
    exact ⟨rfl, ⟨(by omega : g.gap_start - 1 ≤ g.gap_end), h2, h3, h4⟩,
        by simp [gap_length]; omega⟩

theorem gap_char_at_eq_getD (g : gapbuf) (hw : gap_wf g) (i : Int) :
    gap_char_at g i =
      if 0 ≤ i ∧ i < (gap_length g : Int) then (gap_content g).getD i.toNat nullChar
      else nullChar := by
  obtain ⟨h1, h2, h3, h4⟩ := hw
  have hgs : g.gap_start ≤ g.buf.length := by omega
  have hA : (g.buf.take g.gap_start).length = g.gap_start := by simp; omega
  unfold gap_char_at
  by_cases hout : i < 0 ∨ (gap_length g : Int) ≤ i
  · rw [if_pos hout, if_neg (by omega)]
  · rw [if_neg hout, if_pos (show (0:Int) ≤ i ∧ i < (gap_length g : Int) from by omega)]
    have hi0 : 0 ≤ i := by omega
    have hilen : i.toNat < gap_length g := by omega
    by_cases hlt : i < (g.gap_start : Int)
    · rw [if_pos hlt]
      unfold gap_content
      rw [List.getD_eq_getElem?_getD, List.getD_eq_getElem?_getD,
          List.getElem?_append_left (by rw [hA]; omega),
          List.getElem?_take_of_lt (by omega)]
    · rw [if_neg hlt]
      unfold gap_content
      rw [List.getD_eq_getElem?_getD, List.getD_eq_getElem?_getD,
          List.getElem?_append_right (by rw [hA]; omega),
          hA, List.getElem?_drop]

theorem gap_char_at_congr (g g' : gapbuf) (hw : gap_wf g) (hw' : gap_wf g')
    (hc : gap_content g' = gap_content g) (i : Int) :
    gap_char_at g' i = gap_char_at g i := by
  have hl : gap_length g' = gap_length g := by
    rw [← gap_content_length g hw, ← gap_content_length g' hw', hc]
  rw [gap_char_at_eq_getD g hw i, gap_char_at_eq_getD g' hw' i, hc, hl]

theorem gap_init_wf (n : Int) (h : 2 ≤ n ∨ n ≤ 0) : gap_wf (gap_init n) := by
  have he : gap_init n = { buf := List.replicate (if 0 < n then n.toNat else 1024) nullChar
                         , cap := (if 0 < n then n.toNat else 1024)
                         , gap_start := 0
                         , gap_end := (if 0 < n then n.toNat else 1024) } := rfl
  rw [he]
  refine ⟨Nat.zero_le _, le_refl _, by simp, ?_⟩
  show 2 ≤ if 0 < n then n.toNat else 1024
  split_ifs with h2 <;> omega

/- -------- coordinate mapper lemmas -------- -/

theorem pos_to_rowcol_succ (g : gapbuf) (p : Nat) :
    pos_to_rowcol g (p + 1) =
      (if gap_char_at g (p : Int) = '\n' then ((pos_to_rowcol g p).1 + 1, 0)
       else ((pos_to_rowcol g p).1, (pos_to_rowcol g p).2 + 1)) := by
  unfold pos_to_rowcol
  rw [List.range_succ, List.foldl_append]
  simp only [List.foldl_cons, List.foldl_nil]

theorem p2r_col_spec (g : gapbuf) :
    ∀ p r c, pos_to_rowcol g p = (r, c) →
      c ≤ p ∧ ∀ i, p - c ≤ i → i < p → gap_char_at g (i : Int) ≠ '\n' := by
  intro p
  induction p with
  | zero =>
    intro r c h
    have h0 : pos_to_rowcol g 0 = ((0 : Nat), (0 : Nat)) := rfl
    rw [h0] at h
    simp only [Prod.mk.injEq] at h
    obtain ⟨hr, hc⟩ := h
    exact ⟨by omega, fun i h1 h2 => absurd h2 (by omega)⟩
  | succ p ih =>
    intro r c h
    rcases hp2 : pos_to_rowcol g p with ⟨r', c'⟩
    obtain ⟨ihc, ihn⟩ := ih r' c' hp2
    rw [pos_to_rowcol_succ, hp2] at h
    by_cases hc : gap_char_at g (p : Int) = '\n'
    · rw [if_pos hc] at h
      simp only [Prod.mk.injEq] at h
      obtain ⟨hr, hcc⟩ := h
      refine ⟨by omega, fun i h1 h2 => absurd h2 (by omega)⟩
    · rw [if_neg hc] at h
      simp only [Prod.mk.injEq] at h
      obtain ⟨hr, hcc⟩ := h
      refine ⟨by omega, fun i h1 h2 => ?_⟩
      by_cases hip : i < p
      · exact ihn i (by omega) hip
      · have : i = p := by omega
        rw [this]
        exact hc

theorem r2p_loop1_exit (g : gapbuf) (row : Int) (pos cr cc : Nat)
    (h : ¬(pos < gap_length g ∧ (cr : Int) < row)) :
    r2p_loop1 g row pos cr cc = (pos, cr, cc) := by
  rw [r2p_loop1, dif_neg h]

theorem r2p_loop1_step_nl (g : gapbuf) (row : Int) (pos cr cc : Nat)
    (h1 : pos < gap_length g) (h2 : (cr : Int) < row)
    (hc : gap_char_at g (pos : Int) = '\n') :
    r2p_loop1 g row pos cr cc = r2p_loop1 g row (pos + 1) (cr + 1) 0 := by
  rw [r2p_loop1, dif_pos ⟨h1, h2⟩, if_pos hc]

theorem r2p_loop1_step_ch (g : gapbuf) (row : Int) (pos cr cc : Nat)
    (h1 : pos < gap_length g) (h2 : (cr : Int) < row)
    (hc : gap_char_at g (pos : Int) ≠ '\n') :
    r2p_loop1 g row pos cr cc = r2p_loop1 g row (pos + 1) cr (cc + 1) := by
  rw [r2p_loop1, dif_pos ⟨h1, h2⟩, if_neg hc]

theorem r2p_loop1_trans (g : gapbuf) (r R : Int) (hrR : r ≤ R) :
    ∀ pos cr cc, r2p_loop1 g R pos cr cc =
      r2p_loop1 g R (r2p_loop1 g r pos cr cc).1 (r2p_loop1 g r pos cr cc).2.1
        (r2p_loop1 g r pos cr cc).2.2 := by
  intro pos cr cc
  induction pos, cr, cc using r2p_loop1.induct g r with
  | case1 pos cr cc h hc ih =>
    rw [r2p_loop1_step_nl g r pos cr cc h.1 h.2 hc,
        r2p_loop1_step_nl g R pos cr cc h.1 (by omega) hc]
    exact ih
  | case2 pos cr cc h hc ih =>
    rw [r2p_loop1_step_ch g r pos cr cc h.1 h.2 hc,
        r2p_loop1_step_ch g R pos cr cc h.1 (by omega) hc]
    exact ih
  | case3 pos cr cc h =>
    rw [r2p_loop1_exit g r pos cr cc h]

theorem r2p_loop1_adv (g : gapbuf) (row : Int) :
    ∀ (k pos cr cc : Nat), (cr : Int) < row → pos + k ≤ gap_length g →
      (∀ i, i < k → gap_char_at g ((pos + i : Nat) : Int) ≠ '\n') →
      r2p_loop1 g row pos cr cc = r2p_loop1 g row (pos + k) cr (cc + k) := by
  intro k
  induction k with
  | zero => intro pos cr cc _ _ _; rfl
  | succ k ih =>
    intro pos cr cc hr hlen hnl
    rw [r2p_loop1_step_ch g row pos cr cc (by omega) hr
        (by simpa using hnl 0 (by omega))]
    rw [ih (pos + 1) cr (cc + 1) hr (by omega) (fun i hi => by
      have e : pos + 1 + i = pos + (i + 1) := by omega
      rw [e]
      exact hnl (i + 1) (by omega))]
    rw [show pos + 1 + k = pos + (k + 1) by omega, show cc + 1 + k = cc + (k + 1) by omega]

theorem r2p_loop1_start (g : gapbuf) :
    ∀ p r c, p ≤ gap_length g → pos_to_rowcol g p = (r, c) →
      r2p_loop1 g (r : Int) 0 0 0 = (p - c, r, 0) := by
  intro p
  induction p with
  | zero =>
    intro r c hp h
    have h0 : pos_to_rowcol g 0 = ((0 : Nat), (0 : Nat)) := rfl
    rw [h0] at h
    simp only [Prod.mk.injEq] at h
    obtain ⟨hr, hc⟩ := h
    subst hr
    subst hc
    rw [r2p_loop1_exit g ((0 : Nat) : Int) 0 0 0 (by omega)]
  | succ p ih =>
    intro r c hp h
    rcases hp2 : pos_to_rowcol g p with ⟨r', c'⟩
    obtain ⟨hcle, hnl⟩ := p2r_col_spec g p r' c' hp2
    rw [pos_to_rowcol_succ, hp2] at h
    by_cases hc : gap_char_at g (p : Int) = '\n'
    · rw [if_pos hc] at h
      simp only [Prod.mk.injEq] at h
      obtain ⟨hr, hcc⟩ := h
      subst hr
      subst hcc
      have hIH := ih r' c' (by omega) hp2
      rw [r2p_loop1_trans g (r' : Int) ((r' + 1 : Nat) : Int) (by push_cast; omega) 0 0 0, hIH]
      show r2p_loop1 g ((r' + 1 : Nat) : Int) (p - c') r' 0 = (p + 1 - 0, r' + 1, 0)
      rw [r2p_loop1_adv g ((r' + 1 : Nat) : Int) c' (p - c') r' 0 (by push_cast; omega)
          (by omega) (fun i hi => hnl (p - c' + i) (by omega) (by omega))]
      rw [show p - c' + c' = p by omega, show (0 : Nat) + c' = c' by omega]
      rw [r2p_loop1_step_nl g ((r' + 1 : Nat) : Int) p r' c' (by omega) (by push_cast; omega) hc]
      rw [r2p_loop1_exit g ((r' + 1 : Nat) : Int) (p + 1) (r' + 1) 0 (by push_cast; omega),
          Nat.sub_zero]
    · rw [if_neg hc] at h
      simp only [Prod.mk.injEq] at h
      obtain ⟨hr, hcc⟩ := h
      subst hr
      subst hcc
      have hIH := ih r' c' (by omega) hp2
      rw [show p + 1 - (c' + 1) = p - c' by omega]
      exact hIH

theorem r2p_loop2_exit (g : gapbuf) (col : Int) (pos cc : Nat)
    (h : ¬(pos < gap_length g ∧ (cc : Int) < col)) :
    r2p_loop2 g col pos cc = pos := by
  rw [r2p_loop2, dif_neg h]

theorem r2p_loop2_step_ch (g : gapbuf) (col : Int) (pos cc : Nat)
    (h1 : pos < gap_length g) (h2 : (cc : Int) < col)
    (hc : gap_char_at g (pos : Int) ≠ '\n') :
    r2p_loop2 g col pos cc = r2p_loop2 g col (pos + 1) (cc + 1) := by
  rw [r2p_loop2, dif_pos ⟨h1, h2⟩, if_neg hc]

theorem r2p_loop2_adv (g : gapbuf) (col : Int) :
    ∀ (k pos cc : Nat), pos + k ≤ gap_length g → (cc : Int) + k = col →
      (∀ i, i < k → gap_char_at g ((pos + i : Nat) : Int) ≠ '\n') →
      r2p_loop2 g col pos cc = pos + k := by
  intro k
  induction k with
  | zero =>
    intro pos cc hlen hcol hnl
    rw [r2p_loop2_exit g col pos cc (by omega)]
    omega
  | succ k ih =>
    intro pos cc hlen hcol hnl
    rw [r2p_loop2_step_ch g col pos cc (by omega) (by omega)
        (by simpa using hnl 0 (by omega))]
    rw [ih (pos + 1) (cc + 1) (by omega) (by push_cast at hcol ⊢; omega) (fun i hi => by
      have e : pos + 1 + i = pos + (i + 1) := by omega
      rw [e]
      exact hnl (i + 1) (by omega))]
    omega

/-- Round trip: converting a valid logical position to `(row, col)` and
back yields the same position. -/
theorem rowcol_to_pos_pos_to_rowcol (g : gapbuf) (p : Nat) (hp : p ≤ gap_length g) :
    rowcol_to_pos g ((pos_to_rowcol g p).1 : Int) ((pos_to_rowcol g p).2 : Int) = p := by
  rcases hp2 : pos_to_rowcol g p with ⟨r, c⟩
  obtain ⟨hcle, hnl⟩ := p2r_col_spec g p r c hp2
  show r2p_loop2 g (c : Int)
      (r2p_loop1 g (r : Int) 0 0 0).1 (r2p_loop1 g (r : Int) 0 0 0).2.2 = p
  rw [r2p_loop1_start g p r c hp hp2]
  show r2p_loop2 g (c : Int) (p - c) 0 = p
  rw [r2p_loop2_adv g (c : Int) c (p - c) 0 (by omega) (by push_cast; omega)
      (fun i hi => hnl (p - c + i) (by omega) (by omega))]
  omega

theorem r2p_loop1_le (g : gapbuf) (row : Int) :
    ∀ pos cr cc, pos ≤ gap_length g → (r2p_loop1 g row pos cr cc).1 ≤ gap_length g := by
  intro pos cr cc
  induction pos, cr, cc using r2p_loop1.induct g row with
  | case1 pos cr cc h hc ih =>
    intro hp
    rw [r2p_loop1_step_nl g row pos cr cc h.1 h.2 hc]
    exact ih (by omega)
  | case2 pos cr cc h hc ih =>
    intro hp
    rw [r2p_loop1_step_ch g row pos cr cc h.1 h.2 hc]
    exact ih (by omega)
  | case3 pos cr cc h =>
    intro hp
    rw [r2p_loop1_exit g row pos cr cc h]
    exact hp

theorem r2p_loop2_le (g : gapbuf) (col : Int) :
    ∀ pos cc, pos ≤ gap_length g → r2p_loop2 g col pos cc ≤ gap_length g := by
  intro pos cc
  induction pos, cc using r2p_loop2.induct g col with
  | case1 pos cc h hc =>
    intro hp
    rw [r2p_loop2, dif_pos h, if_pos hc]
    omega
  | case2 pos cc h hc ih =>
    intro hp
    rw [r2p_loop2_step_ch g col pos cc h.1 h.2 hc]
    exact ih (by omega)
  | case3 pos cc h =>
    intro hp
    rw [r2p_loop2_exit g col pos cc h]
    exact hp

/-- `rowcol_to_pos` always lands inside `[0, L]`, whatever `(row, col)` is. -/
theorem rowcol_to_pos_le (g : gapbuf) (row col : Int) :
    rowcol_to_pos g row col ≤ gap_length g := by
  show r2p_loop2 g col (r2p_loop1 g row 0 0 0).1 (r2p_loop1 g row 0 0 0).2.2 ≤ gap_length g
  exact r2p_loop2_le g col _ _ (r2p_loop1_le g row 0 0 0 (by omega))

theorem count_fold_eq (g : gapbuf) :
    ∀ (l : List Nat) (a : Nat),
      l.foldl (fun rows (i : Nat) => if gap_char_at g (i : Int) = '\n' then rows + 1 else rows) a
        = a + l.countP (fun (i : Nat) => decide (gap_char_at g (i : Int) = '\n')) := by
  intro l
  induction l with
  | nil => intro a; simp
  | cons x xs ih =>
    intro a
    rw [List.foldl_cons, List.countP_cons, ih]
    by_cases hx : gap_char_at g (x : Int) = '\n'
    · rw [if_pos hx]
      simp [hx]
      omega
    · rw [if_neg hx]
      simp [hx]

theorem count_rows_eq (g : gapbuf) :
    count_rows g = 1 + (List.range' 0 (gap_length g)).countP
      (fun (i : Nat) => decide (gap_char_at g (i : Int) = '\n')) := by
  unfold count_rows
  rw [List.range_eq_range', count_fold_eq]

theorem r2p_loop1_overflow (g : gapbuf) (row : Int) :
    ∀ (pos cr cc : Nat), pos ≤ gap_length g →
      (cr : Int) + ((List.range' pos (gap_length g - pos)).countP
        (fun (i : Nat) => decide (gap_char_at g (i : Int) = '\n')) : Nat) < row →
      (r2p_loop1 g row pos cr cc).1 = gap_length g := by
  intro pos cr cc
  induction pos, cr, cc using r2p_loop1.induct g row with
  | case1 pos cr cc h hc ih =>
    intro hp hcount
    rw [show gap_length g - pos = (gap_length g - (pos + 1)) + 1 by omega,
        List.range'_succ, List.countP_cons] at hcount
    rw [r2p_loop1_step_nl g row pos cr cc h.1 h.2 hc]
    refine ih (by omega) ?_
    simp [hc] at hcount
    push_cast at hcount ⊢
    omega
  | case2 pos cr cc h hc ih =>
    intro hp hcount
    rw [show gap_length g - pos = (gap_length g - (pos + 1)) + 1 by omega,
        List.range'_succ, List.countP_cons] at hcount
    rw [r2p_loop1_step_ch g row pos cr cc h.1 h.2 hc]
    refine ih (by omega) ?_
    simp [hc] at hcount
    push_cast at hcount ⊢
    omega
  | case3 pos cr cc h =>
    intro hp hcount
    rw [r2p_loop1_exit g row pos cr cc h]
    by_cases hpos : pos < gap_length g
    · exfalso
      have hcr : ¬((cr : Int) < row) := fun hlt => h ⟨hpos, hlt⟩
      have : (0 : Int) ≤ ((List.range' pos (gap_length g - pos)).countP
        (fun (i : Nat) => decide (gap_char_at g (i : Int) = '\n')) : Nat) := by positivity
      omega
    · omega

/-- A row at or past the row count maps to the end of the buffer. -/
theorem rowcol_to_pos_overflow (g : gapbuf) (row col : Int)
    (h : (count_rows g : Int) ≤ row) : rowcol_to_pos g row col = gap_length g := by
  have hc := count_rows_eq g
  show r2p_loop2 g col (r2p_loop1 g row 0 0 0).1 (r2p_loop1 g row 0 0 0).2.2 = gap_length g
  have h1 : (r2p_loop1 g row 0 0 0).1 = gap_length g := by
    refine r2p_loop1_overflow g row 0 0 0 (by omega) ?_
    rw [Nat.sub_zero]
    push_cast
    push_cast at h
    omega
  rw [h1, r2p_loop2_exit g col (gap_length g) _ (by omega)]

/- -------- history engine lemmas -------- -/

theorem insert_take_drop (l : List Char) (p : Nat) (c : Char) (hp : p ≤ l.length) :
    (l.take p ++ c :: l.drop p).take p = l.take p ∧
    (l.take p ++ c :: l.drop p).drop (p + 1) = l.drop p ∧
    (l.take p ++ c :: l.drop p).length = l.length + 1 := by
  have hA : (l.take p).length = p := by simp; omega
  refine ⟨?_, ?_, by simp; omega⟩
  · rw [List.take_append_of_le_length (by omega), List.take_take, min_self]
  · rw [List.append_cons, List.drop_left' (by simp [hA])]

theorem undoN_succ (n : Nat) (s : editHistory × gapbuf) :
    undoN (n + 1) s = undoN n (history_undo s.1 s.2).2 := rfl

theorem redoN_succ (n : Nat) (s : editHistory × gapbuf) :
    redoN (n + 1) s = redoN n (history_redo s.1 s.2).2 := rfl

theorem undoN_succ_outer :
    ∀ (n : Nat) (s : editHistory × gapbuf),
      undoN (n + 1) s = (history_undo (undoN n s).1 (undoN n s).2).2 := by
  intro n
  induction n with
  | zero => intro s; rfl
  | succ n ih =>
    intro s
    rw [undoN_succ (n + 1) s, ih (history_undo s.1 s.2).2, undoN_succ n s]

theorem history_undo_insert (h : editHistory) (g : gapbuf) (p : Nat) (c : Char)
    (us : List edit) (hw : gap_wf g)
    (hstack : h.undoStack =
      { type := editType.EDIT_INSERT, pos := (p : Int), ch := c } :: us)
    (hp : p < gap_length g) :
    history_undo h g = (true,
      { undoStack := us,
        redoStack := { type := editType.EDIT_INSERT, pos := (p : Int), ch := c } :: h.redoStack,
        grouping := h.grouping },
      (gap_delete (gap_move g (p : Int))).2) ∧
    gap_wf (gap_delete (gap_move g (p : Int))).2 ∧
    gap_content (gap_delete (gap_move g (p : Int))).2 =
      (gap_content g).take p ++ (gap_content g).drop (p + 1) ∧
    gap_length (gap_delete (gap_move g (p : Int))).2 = gap_length g - 1 := by
  obtain ⟨hw1, hc1, hcap1, hgs1, hl1⟩ := gap_move_spec g (p : Int) hw
  have hgs1' : (gap_move g (p : Int)).gap_start = p := by omega
  have hne : (gap_move g (p : Int)).gap_end ≠ (gap_move g (p : Int)).cap := by
    obtain ⟨w1, w2, w3, w4⟩ := hw1
    have : gap_length (gap_move g (p : Int)) =
        (gap_move g (p : Int)).cap -
          ((gap_move g (p : Int)).gap_end - (gap_move g (p : Int)).gap_start) := rfl
    omega
  obtain ⟨_, hdel⟩ := gap_delete_spec (gap_move g (p : Int)) hw1
  obtain ⟨hsucc, hwd, hcd, hgsd, hld⟩ := hdel hne
  refine ⟨?_, hwd, ?_, by omega⟩
  · unfold history_undo
    rw [hstack]
  · rw [hcd, hc1, hgs1']

theorem history_redo_insert (h : editHistory) (g : gapbuf) (p : Nat) (c : Char)
    (rs : List edit) (hw : gap_wf g)
    (hstack : h.redoStack =
      { type := editType.EDIT_INSERT, pos := (p : Int), ch := c } :: rs)
    (hp : p ≤ gap_length g) :
    history_redo h g = (true,
      { undoStack := { type := editType.EDIT_INSERT, pos := (p : Int), ch := c } :: h.undoStack,
        redoStack := rs,
        grouping := h.grouping },
      gap_insert (gap_move g (p : Int)) c) ∧
    gap_wf (gap_insert (gap_move g (p : Int)) c) ∧
    gap_content (gap_insert (gap_move g (p : Int)) c) =
      (gap_content g).take p ++ c :: (gap_content g).drop p ∧
    gap_length (gap_insert (gap_move g (p : Int)) c) = gap_length g + 1 := by
  obtain ⟨hw1, hc1, hcap1, hgs1, hl1⟩ := gap_move_spec g (p : Int) hw
  have hgs1' : (gap_move g (p : Int)).gap_start = p := by omega
  obtain ⟨hwi, hci, hgsi, hli⟩ := gap_insert_spec (gap_move g (p : Int)) c hw1
  refine ⟨?_, hwi, ?_, by omega⟩
  · unfold history_redo
    rw [hstack]
  · rw [hci, hc1, hgs1']

theorem editorInsertChar_spec (E : EditorState) (c : Char) (hw : gap_wf E.g) :
    editorInsertChar E c =
      { E with
          g := gap_insert (gap_move E.g ((rowcol_to_pos E.g E.cy E.cx : Nat) : Int)) c,
          history :=
            { undoStack :=
                { type := editType.EDIT_INSERT,
                  pos := ((rowcol_to_pos E.g E.cy E.cx : Nat) : Int),
                  ch := c } :: E.history.undoStack,
              redoStack := [],
              grouping := E.history.grouping },
          cx := E.cx + 1,
          dirty := true } ∧
    gap_wf (editorInsertChar E c).g ∧
    gap_content (editorInsertChar E c).g =
      (gap_content E.g).take (rowcol_to_pos E.g E.cy E.cx) ++
        c :: (gap_content E.g).drop (rowcol_to_pos E.g E.cy E.cx) ∧
    gap_length (editorInsertChar E c).g = gap_length E.g + 1 := by
  have hp : rowcol_to_pos E.g E.cy E.cx ≤ gap_length E.g := rowcol_to_pos_le E.g E.cy E.cx
  obtain ⟨hw1, hc1, hcap1, hgs1, hl1⟩ :=
    gap_move_spec E.g ((rowcol_to_pos E.g E.cy E.cx : Nat) : Int) hw
  have hgs1' : (gap_move E.g ((rowcol_to_pos E.g E.cy E.cx : Nat) : Int)).gap_start =
      rowcol_to_pos E.g E.cy E.cx := by omega
  obtain ⟨hwi, hci, hgsi, hli⟩ :=
    gap_insert_spec (gap_move E.g ((rowcol_to_pos E.g E.cy E.cx : Nat) : Int)) c hw1
  refine ⟨rfl, hwi, ?_, ?_⟩
  · show gap_content
        (gap_insert (gap_move E.g ((rowcol_to_pos E.g E.cy E.cx : Nat) : Int)) c) = _
    rw [hci, hc1, hgs1']
  · show gap_length
        (gap_insert (gap_move E.g ((rowcol_to_pos E.g E.cy E.cx : Nat) : Int)) c) =
      gap_length E.g + 1
    omega

theorem redoN_replay :
    ∀ {l l2 : List Char} {R : List edit}, Replay l R l2 →
    ∀ (g : gapbuf) (us rest : List edit) (grp : Int), gap_wf g → gap_content g = l →
      gap_content (redoN R.length
        ({ undoStack := us, redoStack := R ++ rest, grouping := grp }, g)).2 = l2 ∧
      gap_wf (redoN R.length
        ({ undoStack := us, redoStack := R ++ rest, grouping := grp }, g)).2 := by
  intro l l2 R hR
  induction hR with
  | nil l =>
    intro g us rest grp hw hc
    exact ⟨hc, hw⟩
  | cons l p c rs l2 hp htail ih =>
    intro g us rest grp hw hc
    have hlen : gap_length g = l.length := by
      rw [← gap_content_length g hw, hc]
    obtain ⟨hredo, hwi, hci, hli⟩ :=
      history_redo_insert
        { undoStack := us,
          redoStack := ({ type := editType.EDIT_INSERT, pos := (p : Int), ch := c } :: rs) ++ rest,
          grouping := grp } g p c (rs ++ rest) hw rfl (by omega)
    rw [List.length_cons, redoN_succ, hredo]
    refine ih (gap_insert (gap_move g (p : Int)) c)
      ({ type := editType.EDIT_INSERT, pos := (p : Int), ch := c } :: us) rest grp hwi ?_
    rw [hci, hc]

theorem undoN_applyInserts :
    ∀ (ops : List (Int × Int × Char)) (E : EditorState), gap_wf E.g →
      gap_wf (applyInserts E ops).g ∧
      ∃ R : List edit,
        R.length = ops.length ∧
        Replay (gap_content E.g) R (gap_content (applyInserts E ops).g) ∧
        (undoN ops.length ((applyInserts E ops).history, (applyInserts E ops).g)).1 =
          { undoStack := E.history.undoStack,
            redoStack := R ++ (applyInserts E ops).history.redoStack,
            grouping := E.history.grouping } ∧
        gap_content (undoN ops.length
          ((applyInserts E ops).history, (applyInserts E ops).g)).2 = gap_content E.g ∧
        gap_wf (undoN ops.length
          ((applyInserts E ops).history, (applyInserts E ops).g)).2 := by
  intro ops
  induction ops with
  | nil =>
    intro E hw
    exact ⟨hw, [], rfl, Replay.nil _, rfl, rfl, hw⟩
  | cons m rest ih =>
    intro E hw
    have happ : applyInserts E (m :: rest) =
        applyInserts (editorInsertChar { E with cy := m.1, cx := m.2.1 } m.2.2) rest := rfl
    rw [happ]
    set E0 : EditorState := { E with cy := m.1, cx := m.2.1 } with hE0
    obtain ⟨heq1, hw1, hc1, hl1⟩ := editorInsertChar_spec E0 m.2.2 hw
    set p : Nat := rowcol_to_pos E0.g E0.cy E0.cx with hpdef
    set E1 : EditorState := editorInsertChar E0 m.2.2 with hE1def
    obtain ⟨hwE', R1, hR1len, hR1, hs1, hcs1, hws1⟩ := ih E1 hw1
    have hgE0 : E0.g = E.g := rfl
    have hp_le : p ≤ gap_length E.g := by
      rw [hpdef]
      exact rowcol_to_pos_le E0.g E0.cy E0.cx
    have hplen : p ≤ (gap_content E.g).length := by
      rw [gap_content_length E.g hw]
      exact hp_le
    obtain ⟨htk, hdr, hln⟩ := insert_take_drop (gap_content E.g) p m.2.2 hplen
    have hcE1 : gap_content E1.g =
        (gap_content E.g).take p ++ m.2.2 :: (gap_content E.g).drop p := by
      rw [hc1, hgE0]
    have hstack1 : (undoN rest.length ((applyInserts E1 rest).history,
        (applyInserts E1 rest).g)).1.undoStack =
        { type := editType.EDIT_INSERT, pos := (p : Int), ch := m.2.2 } ::
        E.history.undoStack := by
      rw [hs1, heq1]
    have hlen1 : gap_length (undoN rest.length ((applyInserts E1 rest).history,
        (applyInserts E1 rest).g)).2 = gap_length E.g + 1 := by
      rw [← gap_content_length _ hws1, hcs1, hcE1, hln, gap_content_length E.g hw]
    obtain ⟨hundo, hwu, hcu, hlu⟩ := history_undo_insert
      (undoN rest.length ((applyInserts E1 rest).history, (applyInserts E1 rest).g)).1
      (undoN rest.length ((applyInserts E1 rest).history, (applyInserts E1 rest).g)).2
      p m.2.2 E.history.undoStack hws1 hstack1 (by omega)
    refine ⟨hwE', { type := editType.EDIT_INSERT, pos := (p : Int), ch := m.2.2 } :: R1,
      by simp [hR1len], ?_, ?_, ?_, ?_⟩
    · refine Replay.cons _ p m.2.2 R1 _ hplen ?_
      rw [← hcE1]
      exact hR1
    · simp only [List.length_cons]
      rw [undoN_succ_outer, hundo, hs1, heq1]
      rfl
    · simp only [List.length_cons]
      rw [undoN_succ_outer, hundo]
      show gap_content (gap_delete (gap_move _ ((p : Nat) : Int))).2 = gap_content E.g
      rw [hcu, hcs1, hcE1, htk, hdr, List.take_append_drop]
    · simp only [List.length_cons]
      rw [undoN_succ_outer, hundo]
      exact hwu

/- -------- clipboard paste lemmas -------- -/

theorem paste_fold_spec (clip : List Char) (pos : Nat) (l : List Char) (hpos : pos ≤ l.length) :
    ∀ (m k : Nat) (g : gapbuf) (h : editHistory),
      gap_wf g → k + m = clip.length →
      g.gap_start = pos + k →
      gap_content g = l.take pos ++ clip.take k ++ l.drop pos →
      gap_wf ((List.range' k m).foldl
        (fun (s : gapbuf × editHistory) (i : Nat) =>
          (gap_insert s.1 (clip.getD i nullChar),
           history_push s.2 editType.EDIT_INSERT ((pos : Int) + (i : Int))
             (clip.getD i nullChar))) (g, h)).1 ∧
      gap_content ((List.range' k m).foldl
        (fun (s : gapbuf × editHistory) (i : Nat) =>
          (gap_insert s.1 (clip.getD i nullChar),
           history_push s.2 editType.EDIT_INSERT ((pos : Int) + (i : Int))
             (clip.getD i nullChar))) (g, h)).1 =
        l.take pos ++ clip ++ l.drop pos ∧
      ((List.range' k m).foldl
        (fun (s : gapbuf × editHistory) (i : Nat) =>
          (gap_insert s.1 (clip.getD i nullChar),
           history_push s.2 editType.EDIT_INSERT ((pos : Int) + (i : Int))
             (clip.getD i nullChar))) (g, h)).2.undoStack =
        ((List.range' k m).reverse.map
          (fun (i : Nat) => ({ type := editType.EDIT_INSERT
                             , pos := (pos : Int) + (i : Int)
                             , ch := clip.getD i nullChar } : edit))) ++ h.undoStack ∧
      ((List.range' k m).foldl
        (fun (s : gapbuf × editHistory) (i : Nat) =>
          (gap_insert s.1 (clip.getD i nullChar),
           history_push s.2 editType.EDIT_INSERT ((pos : Int) + (i : Int))
             (clip.getD i nullChar))) (g, h)).2.redoStack =
        (if m = 0 then h.redoStack else []) ∧
      ((List.range' k m).foldl
        (fun (s : gapbuf × editHistory) (i : Nat) =>
          (gap_insert s.1 (clip.getD i nullChar),
           history_push s.2 editType.EDIT_INSERT ((pos : Int) + (i : Int))
             (clip.getD i nullChar))) (g, h)).2.grouping = h.grouping := by
  intro m
  induction m with
  | zero =>
    intro k g h hw hkm hgs hcontent
    have ht : clip.take k = clip := List.take_of_length_le (by omega)
    rw [ht] at hcontent
    exact ⟨hw, hcontent, by simp, by simp, rfl⟩
  | succ m ih =>
    intro k g h hw hkm hgs hcontent
    have hk : k < clip.length := by omega
    have hX : (l.take pos ++ clip.take k).length = pos + k := by
      simp
      omega
    obtain ⟨hwi, hci, hgsi, hli⟩ := gap_insert_spec g (clip.getD k nullChar) hw
    have hck : clip.take (k + 1) = clip.take k ++ [clip.getD k nullChar] := by
      rw [List.take_succ, List.getElem?_eq_getElem hk]
      simp [List.getD_eq_getElem?_getD, List.getElem?_eq_getElem hk]
    have hcontent' : gap_content (gap_insert g (clip.getD k nullChar)) =
        l.take pos ++ clip.take (k + 1) ++ l.drop pos := by
      rw [hci, hgs, hcontent, List.take_left' hX, List.drop_left' hX, hck]
      simp
    have := ih (k + 1) (gap_insert g (clip.getD k nullChar))
      (history_push h editType.EDIT_INSERT ((pos : Int) + (k : Int)) (clip.getD k nullChar))
      hwi (by omega) (by omega) hcontent'
    obtain ⟨c1, c2, c3, c4, c5⟩ := this
    rw [List.range'_succ, List.foldl_cons]
    refine ⟨c1, c2, ?_, ?_, c5⟩
    · rw [c3]
      show _ = (List.reverse (k :: List.range' (k + 1) m)).map _ ++ h.undoStack
      rw [List.reverse_cons, List.map_append, List.append_assoc]
      rfl
    · rw [c4, if_neg (Nat.succ_ne_zero m)]
      split_ifs <;> rfl

theorem clipboard_paste_spec (E : EditorState) (hw : gap_wf E.g) :
    (E.clip.length = 0 → clipboard_paste E = E) ∧
    (E.clip.length ≠ 0 →
      (clipboard_paste E).cx = E.cx ∧
      (clipboard_paste E).cy = E.cy ∧
      gap_wf (clipboard_paste E).g ∧
      gap_content (clipboard_paste E).g =
        (gap_content E.g).take (rowcol_to_pos E.g E.cy E.cx) ++ E.clip ++
          (gap_content E.g).drop (rowcol_to_pos E.g E.cy E.cx) ∧
      (clipboard_paste E).history.undoStack =
        ((List.range E.clip.length).reverse.map
          (fun (i : Nat) => ({ type := editType.EDIT_INSERT
                             , pos := ((rowcol_to_pos E.g E.cy E.cx : Nat) : Int) + (i : Int)
                             , ch := E.clip.getD i nullChar } : edit))) ++
          E.history.undoStack ∧
      (clipboard_paste E).history.redoStack = []) := by
  constructor
  · intro h
    unfold clipboard_paste
    rw [if_pos h]
  · intro hne
    have hp_le : rowcol_to_pos E.g E.cy E.cx ≤ gap_length E.g :=
      rowcol_to_pos_le E.g E.cy E.cx
    have hplen : rowcol_to_pos E.g E.cy E.cx ≤ (gap_content E.g).length := by
      rw [gap_content_length E.g hw]
      exact hp_le
    obtain ⟨hw0, hc0, hcap0, hgs0, hl0⟩ :=
      gap_move_spec E.g ((rowcol_to_pos E.g E.cy E.cx : Nat) : Int) hw
    have hgs0' : (gap_move E.g ((rowcol_to_pos E.g E.cy E.cx : Nat) : Int)).gap_start =
        rowcol_to_pos E.g E.cy E.cx + 0 := by omega
    have hcontent0 : gap_content (gap_move E.g ((rowcol_to_pos E.g E.cy E.cx : Nat) : Int)) =
        (gap_content E.g).take (rowcol_to_pos E.g E.cy E.cx) ++ E.clip.take 0 ++
          (gap_content E.g).drop (rowcol_to_pos E.g E.cy E.cx) := by
      rw [hc0]
      simp
    obtain ⟨c1, c2, c3, c4, c5⟩ := paste_fold_spec E.clip (rowcol_to_pos E.g E.cy E.cx)
      (gap_content E.g) hplen E.clip.length 0
      (gap_move E.g ((rowcol_to_pos E.g E.cy E.cx : Nat) : Int)) E.history
      hw0 (by omega) hgs0' hcontent0
    have hpaste : clipboard_paste E =
        { E with
            g := ((List.range' 0 E.clip.length).foldl
              (fun (s : gapbuf × editHistory) (i : Nat) =>
                (gap_insert s.1 (E.clip.getD i nullChar),
                 history_push s.2 editType.EDIT_INSERT
                   (((rowcol_to_pos E.g E.cy E.cx : Nat) : Int) + (i : Int))
                   (E.clip.getD i nullChar)))
              (gap_move E.g ((rowcol_to_pos E.g E.cy E.cx : Nat) : Int), E.history)).1,
            history := ((List.range' 0 E.clip.length).foldl
              (fun (s : gapbuf × editHistory) (i : Nat) =>
                (gap_insert s.1 (E.clip.getD i nullChar),
                 history_push s.2 editType.EDIT_INSERT
                   (((rowcol_to_pos E.g E.cy E.cx : Nat) : Int) + (i : Int))
                   (E.clip.getD i nullChar)))
              (gap_move E.g ((rowcol_to_pos E.g E.cy E.cx : Nat) : Int), E.history)).2,
            dirty := true } := by
      unfold clipboard_paste
      rw [if_neg hne, List.range_eq_range']
    rw [hpaste, List.range_eq_range']
    refine ⟨rfl, rfl, c1, c2, ?_, ?_⟩
    · rw [show ({ E with
          g := ((List.range' 0 E.clip.length).foldl
            (fun (s : gapbuf × editHistory) (i : Nat) =>
              (gap_insert s.1 (E.clip.getD i nullChar),
               history_push s.2 editType.EDIT_INSERT
                 (((rowcol_to_pos E.g E.cy E.cx : Nat) : Int) + (i : Int))
                 (E.clip.getD i nullChar)))
            (gap_move E.g ((rowcol_to_pos E.g E.cy E.cx : Nat) : Int), E.history)).1,
          history := ((List.range' 0 E.clip.length).foldl
            (fun (s : gapbuf × editHistory) (i : Nat) =>
              (gap_insert s.1 (E.clip.getD i nullChar),
               history_push s.2 editType.EDIT_INSERT
                 (((rowcol_to_pos E.g E.cy E.cx : Nat) : Int) + (i : Int))
                 (E.clip.getD i nullChar)))
            (gap_move E.g ((rowcol_to_pos E.g E.cy E.cx : Nat) : Int), E.history)).2,
          dirty := true } : EditorState).history =
        ((List.range' 0 E.clip.length).foldl
          (fun (s : gapbuf × editHistory) (i : Nat) =>
            (gap_insert s.1 (E.clip.getD i nullChar),
             history_push s.2 editType.EDIT_INSERT
               (((rowcol_to_pos E.g E.cy E.cx : Nat) : Int) + (i : Int))
               (E.clip.getD i nullChar)))
          (gap_move E.g ((rowcol_to_pos E.g E.cy E.cx : Nat) : Int), E.history)).2 from rfl]
      exact c3
    · rw [c4, if_neg hne]

/- -------- selection lemmas -------- -/

theorem sel_normalize_comm (a b c d : Int) :
    sel_normalize a b c d = sel_normalize c d a b := by
  unfold sel_normalize
  by_cases h1 : c < a ∨ (a = c ∧ d < b)
  · rw [if_pos h1]
    by_cases h2 : a < c ∨ (c = a ∧ b < d)
    · exfalso
      omega
    · rw [if_neg h2]
  · rw [if_neg h1]
    by_cases h2 : a < c ∨ (c = a ∧ b < d)
    · rw [if_pos h2]
    · rw [if_neg h2]
      simp only [Prod.mk.injEq]
      omega

/- -------- highlight classifier lemmas -------- -/

theorem get_highlight_quote_toggles (content : List Char) (pos : Nat)
    (filename : Option (List Char)) (s : Bool)
    (hc : filename_is_c filename = true) (hpos : pos < content.length)
    (hq : content.getD pos nullChar = '"') :
    (get_highlight content pos filename s).2 = !s := by
  unfold get_highlight
  rw [if_neg (by omega), if_neg (by rw [hc]; simp)]
  rw [if_neg (fun hcm => by
    rw [hq] at hcm
    exact absurd hcm.2.1 (by decide))]
  rw [if_neg (fun hnum => by
    rw [hq] at hnum
    exact absurd hnum.1 (by decide))]
  rw [hq, if_pos rfl]
  cases s <;> split_ifs <;> rfl

theorem get_highlight_state_no_quote (content : List Char) (pos : Nat)
    (filename : Option (List Char)) (s : Bool)
    (hq : content.getD pos nullChar ≠ '"') :
    (get_highlight content pos filename s).2 = s := by
  simp only [get_highlight]
  rw [if_neg hq]
  split_ifs <;> rfl

/- -------- the claims -------- -/

/-- C1: for every initial editor state and every sequence of N
single-character inserts performed via `editorInsertChar` (each at its
cursor position, pushing one Insert record), N `history_undo` calls
restore the logical buffer content to the pre-insert state, and N
subsequent `history_redo` calls restore the post-insert content. -/
theorem claim_C1_insert_undo_redo (E : EditorState) (ops : List (Int × Int × Char))
    (hw : gap_wf E.g) :
    gap_content (undoN ops.length
      ((applyInserts E ops).history, (applyInserts E ops).g)).2 = gap_content E.g ∧
    gap_content (redoN ops.length (undoN ops.length
      ((applyInserts E ops).history, (applyInserts E ops).g))).2 =
      gap_content (applyInserts E ops).g := by
  obtain ⟨hwE', R, hRlen, hRep, hs1, hcs, hws⟩ := undoN_applyInserts ops E hw
  refine ⟨hcs, ?_⟩
  have hrd := redoN_replay hRep (undoN ops.length
    ((applyInserts E ops).history, (applyInserts E ops).g)).2
    E.history.undoStack ((applyInserts E ops).history.redoStack) E.history.grouping hws hcs
  rw [hRlen] at hrd
  rw [← hs1] at hrd
  exact hrd.1

/-- Witness for C1 at a concrete state: two inserts into the empty buffer. -/
theorem claim_C1_witness :
    gap_wf est_c1.g ∧
    (gap_content (undoN ([((0 : Int), (0 : Int), 'a'), ((0 : Int), (0 : Int), 'b')] :
        List (Int × Int × Char)).length
      ((applyInserts est_c1 [((0 : Int), (0 : Int), 'a'), ((0 : Int), (0 : Int), 'b')]).history,
       (applyInserts est_c1 [((0 : Int), (0 : Int), 'a'), ((0 : Int), (0 : Int), 'b')]).g)).2 =
      gap_content est_c1.g ∧
    gap_content (redoN ([((0 : Int), (0 : Int), 'a'), ((0 : Int), (0 : Int), 'b')] :
        List (Int × Int × Char)).length
      (undoN ([((0 : Int), (0 : Int), 'a'), ((0 : Int), (0 : Int), 'b')] :
        List (Int × Int × Char)).length
      ((applyInserts est_c1 [((0 : Int), (0 : Int), 'a'), ((0 : Int), (0 : Int), 'b')]).history,
       (applyInserts est_c1 [((0 : Int), (0 : Int), 'a'), ((0 : Int), (0 : Int), 'b')]).g))).2 =
      gap_content (applyInserts est_c1
        [((0 : Int), (0 : Int), 'a'), ((0 : Int), (0 : Int), 'b')]).g) :=
  ⟨by decide, claim_C1_insert_undo_redo est_c1
    [((0 : Int), (0 : Int), 'a'), ((0 : Int), (0 : Int), 'b')] (by decide)⟩

/-- C2: `rowcol_to_pos` inverts `pos_to_rowcol` on every valid logical
position, and `pos_to_rowcol` inverts `rowcol_to_pos` on every `(row, col)`
pair that is the coordinate of an actual position. -/
theorem claim_C2_rowcol_roundtrip (g : gapbuf) (hw : gap_wf g) :
    (∀ p : Nat, p ≤ gap_length g →
      rowcol_to_pos g ((pos_to_rowcol g p).1 : Int) ((pos_to_rowcol g p).2 : Int) = p) ∧
    (∀ row col : Nat, (∃ p : Nat, p ≤ gap_length g ∧ pos_to_rowcol g p = (row, col)) →
      pos_to_rowcol g (rowcol_to_pos g (row : Int) (col : Int)) = (row, col)) := by
  refine ⟨fun p hp => rowcol_to_pos_pos_to_rowcol g p hp, ?_⟩
  rintro row col ⟨p, hp, hpr⟩
  have h1 := rowcol_to_pos_pos_to_rowcol g p hp
  rw [hpr] at h1
  simp only [Prod.fst, Prod.snd] at h1
  rw [h1, hpr]

/-- Witness for C2 on the buffer `"ab\ncd"` at position 3. -/
theorem claim_C2_witness :
    gap_wf gbuf_abncd ∧ 3 ≤ gap_length gbuf_abncd ∧
    rowcol_to_pos gbuf_abncd ((pos_to_rowcol gbuf_abncd 3).1 : Int)
      ((pos_to_rowcol gbuf_abncd 3).2 : Int) = 3 :=
  ⟨by decide, by decide, (claim_C2_rowcol_roundtrip gbuf_abncd (by decide)).1 3 (by decide)⟩

/-- C3: `gap_get` into a destination smaller than the logical length
returns `-1` and leaves the destination untouched (no silent truncation);
with sufficient capacity it returns `L` and copies exactly the logical
sequence, prefix then suffix. -/
theorem claim_C3_gap_get_contract (g : gapbuf) (out : List Char) (hw : gap_wf g) :
    (out.length < gap_length g → gap_get g out = (-1, out)) ∧
    (gap_length g ≤ out.length →
      (gap_get g out).1 = (gap_length g : Int) ∧
      (gap_get g out).2 = gap_content g ++ out.drop (gap_length g) ∧
      ∀ i : Nat, i < gap_length g →
        (gap_get g out).2.getD i nullChar = gap_char_at g (i : Int)) := by
  constructor
  · intro h
    unfold gap_get
    rw [if_pos h]
  · intro h
    have hsum : (g.buf.take g.gap_start).length + (g.buf.drop g.gap_end).length =
        gap_length g := by
      obtain ⟨h1, h2, h3, h4⟩ := hw
      simp [gap_length]
      omega
    have heq : gap_get g out = ((gap_length g : Int),
        g.buf.take g.gap_start ++ g.buf.drop g.gap_end ++
          out.drop ((g.buf.take g.gap_start).length + (g.buf.drop g.gap_end).length)) := by
      unfold gap_get
      rw [if_neg (by omega)]
    rw [heq, hsum]
    refine ⟨rfl, rfl, ?_⟩
    intro i hi
    have hclen : i < (gap_content g).length := by
      rw [gap_content_length g hw]
      exact hi
    show (gap_content g ++ out.drop (gap_length g)).getD i nullChar = _
    rw [gap_char_at_eq_getD g hw (i : Int),
        if_pos ⟨by positivity, by exact_mod_cast hi⟩]
    rw [List.getD_eq_getElem?_getD, List.getD_eq_getElem?_getD,
        List.getElem?_append_left hclen]
    simp

/-- Witness for C3 on the buffer `"ab\ncd"` with a 3-byte and a 6-byte
destination. -/
theorem claim_C3_witness :
    gap_wf gbuf_abncd ∧
    ("zzz".toList.length < gap_length gbuf_abncd ∧
      gap_get gbuf_abncd "zzz".toList = (-1, "zzz".toList)) ∧
    (gap_length gbuf_abncd ≤ "zzzzzz".toList.length ∧
      (gap_get gbuf_abncd "zzzzzz".toList).1 = (gap_length gbuf_abncd : Int)) :=
  ⟨by decide,
   ⟨by decide, (claim_C3_gap_get_contract gbuf_abncd "zzz".toList (by decide)).1 (by decide)⟩,
   ⟨by decide,
    ((claim_C3_gap_get_contract gbuf_abncd "zzzzzz".toList (by decide)).2 (by decide)).1⟩⟩

/-- C4: `history_push` clears the redo stack; in particular after
`undo(); push(Insert); redo()` the redo call fails, leaving the history
and buffer unchanged. -/
theorem claim_C4_push_clears_redo :
    (∀ (h : editHistory) (t : editType) (p : Int) (ch : Char),
      (history_push h t p ch).redoStack = []) ∧
    (∀ (h : editHistory) (g : gapbuf) (p : Int) (ch : Char) (g2 : gapbuf),
      history_redo (history_push (history_undo h g).2.1 editType.EDIT_INSERT p ch) g2 =
        (false, history_push (history_undo h g).2.1 editType.EDIT_INSERT p ch, g2)) :=
  ⟨fun h t p ch => rfl, fun h g p ch g2 => rfl⟩

/-- C5 counterexample: pasting a 1-byte clipboard leaves the cursor where
it was — `clipboard_paste` never advances `cx`, contradicting the claim
that the cursor advances by the number of bytes pasted. -/
theorem claim_C5_counterexample :
    est_paste.clip.length = 1 ∧
    (clipboard_paste est_paste).cx ≠ est_paste.cx + (est_paste.clip.length : Int) := by
  constructor
  · decide
  · decide

/-- C5 (amended): paste of an empty clipboard is a no-op; otherwise paste
inserts the clipboard bytes in order at the cursor position, pushes one
Insert record per byte at consecutive positions (clearing the redo stack),
and leaves the cursor `(cx, cy)` unchanged. -/
theorem claim_C5_paste_spec (E : EditorState) (hw : gap_wf E.g) :
    (E.clip.length = 0 → clipboard_paste E = E) ∧
    (E.clip.length ≠ 0 →
      (clipboard_paste E).cx = E.cx ∧
      (clipboard_paste E).cy = E.cy ∧
      gap_wf (clipboard_paste E).g ∧
      gap_content (clipboard_paste E).g =
        (gap_content E.g).take (rowcol_to_pos E.g E.cy E.cx) ++ E.clip ++
          (gap_content E.g).drop (rowcol_to_pos E.g E.cy E.cx) ∧
      (clipboard_paste E).history.undoStack =
        ((List.range E.clip.length).reverse.map
          (fun (i : Nat) => ({ type := editType.EDIT_INSERT
                             , pos := ((rowcol_to_pos E.g E.cy E.cx : Nat) : Int) + (i : Int)
                             , ch := E.clip.getD i nullChar } : edit))) ++
          E.history.undoStack ∧
      (clipboard_paste E).history.redoStack = []) :=
  clipboard_paste_spec E hw

/-- Witness for the amended C5 at a concrete one-byte paste. -/
theorem claim_C5_witness :
    gap_wf est_paste.g ∧
    ((est_paste.clip.length = 0 → clipboard_paste est_paste = est_paste) ∧
     (est_paste.clip.length ≠ 0 →
      (clipboard_paste est_paste).cx = est_paste.cx ∧
      (clipboard_paste est_paste).cy = est_paste.cy ∧
      gap_wf (clipboard_paste est_paste).g ∧
      gap_content (clipboard_paste est_paste).g =
        (gap_content est_paste.g).take
            (rowcol_to_pos est_paste.g est_paste.cy est_paste.cx) ++ est_paste.clip ++
          (gap_content est_paste.g).drop
            (rowcol_to_pos est_paste.g est_paste.cy est_paste.cx) ∧
      (clipboard_paste est_paste).history.undoStack =
        ((List.range est_paste.clip.length).reverse.map
          (fun (i : Nat) => ({ type := editType.EDIT_INSERT
                             , pos := ((rowcol_to_pos est_paste.g est_paste.cy est_paste.cx :
                                 Nat) : Int) + (i : Int)
                             , ch := est_paste.clip.getD i nullChar } : edit))) ++
          est_paste.history.undoStack ∧
      (clipboard_paste est_paste).history.redoStack = [])) :=
  ⟨by decide, claim_C5_paste_spec est_paste (by decide)⟩

/-- C6: `gap_move` clamps its argument into `[0, L]` and afterwards
`gap_start` is exactly the clamped position; only the gap boundaries move —
the logical sequence (via `gap_char_at` and `gap_content`) and the logical
length are unchanged, and well-formedness is preserved. -/
theorem claim_C6_gap_move_frame (g : gapbuf) (pos : Int) (hw : gap_wf g) :
    ((gap_move g pos).gap_start : Int) = max 0 (min pos (gap_length g)) ∧
    gap_content (gap_move g pos) = gap_content g ∧
    gap_length (gap_move g pos) = gap_length g ∧
    (∀ i : Int, gap_char_at (gap_move g pos) i = gap_char_at g i) ∧
    gap_wf (gap_move g pos) := by
  obtain ⟨hw', hc, hcap, hgs, hl⟩ := gap_move_spec g pos hw
  exact ⟨hgs, hc, hl, fun i => gap_char_at_congr g _ hw hw' hc i, hw'⟩

/-- Witness for C6: moving the gap of `"ab\ncd"` to (clamped) position 7. -/
theorem claim_C6_witness :
    gap_wf gbuf_abncd ∧
    (((gap_move gbuf_abncd 7).gap_start : Int) = max 0 (min 7 (gap_length gbuf_abncd)) ∧
     gap_content (gap_move gbuf_abncd 7) = gap_content gbuf_abncd ∧
     gap_length (gap_move gbuf_abncd 7) = gap_length gbuf_abncd ∧
     (∀ i : Int, gap_char_at (gap_move gbuf_abncd 7) i = gap_char_at gbuf_abncd i) ∧
     gap_wf (gap_move gbuf_abncd 7)) :=
  ⟨by decide, claim_C6_gap_move_frame gbuf_abncd 7 (by decide)⟩

/-- C7: every gap-buffer operation preserves the structural invariant
`gap_start ≤ gap_end ≤ cap` (with the allocation really `cap` bytes); the
logical length is `cap - (gap_end - gap_start)`; insert grows the length by
exactly one and a successful backspace/delete shrinks it by exactly one. -/
theorem claim_C7_invariants (g : gapbuf) (pos : Int) (c : Char) (hw : gap_wf g) :
    gap_wf (gap_move g pos) ∧
    gap_wf (gap_insert g c) ∧
    gap_wf (gap_backspace g).2 ∧
    gap_wf (gap_delete g).2 ∧
    (gap_content g).length = g.cap - (g.gap_end - g.gap_start) ∧
    gap_length (gap_insert g c) = gap_length g + 1 ∧
    ((gap_backspace g).1 = true → gap_length (gap_backspace g).2 = gap_length g - 1) ∧
    ((gap_delete g).1 = true → gap_length (gap_delete g).2 = gap_length g - 1) := by
  obtain ⟨hwm, _, _, _, _⟩ := gap_move_spec g pos hw
  obtain ⟨hwi, _, _, hli⟩ := gap_insert_spec g c hw
  obtain ⟨hbs0, hbs1⟩ := gap_backspace_spec g hw
  obtain ⟨hdl0, hdl1⟩ := gap_delete_spec g hw
  have hbwf : gap_wf (gap_backspace g).2 := by
    by_cases hz : g.gap_start = 0
    · rw [hbs0 hz]
      exact hw
    · exact (hbs1 hz).2.1
  have hdwf : gap_wf (gap_delete g).2 := by
    by_cases hz : g.gap_end = g.cap
    · rw [hdl0 hz]
      exact hw
    · exact (hdl1 hz).2.1
  refine ⟨hwm, hwi, hbwf, hdwf, gap_content_length g hw, hli, ?_, ?_⟩
  · intro hs
    by_cases hz : g.gap_start = 0
    · rw [hbs0 hz] at hs
      simp at hs
    · exact (hbs1 hz).2.2
  · intro hs
    by_cases hz : g.gap_end = g.cap
    · rw [hdl0 hz] at hs
      simp at hs
    · exact (hdl1 hz).2.2.2.2

/-- Witness for C7 on `"ab\ncd"` with a move to 1 and an insert of `'q'`. -/
theorem claim_C7_witness :
    gap_wf gbuf_abncd ∧
    (gap_wf (gap_move gbuf_abncd 1) ∧
     gap_wf (gap_insert gbuf_abncd 'q') ∧
     gap_wf (gap_backspace gbuf_abncd).2 ∧
     gap_wf (gap_delete gbuf_abncd).2 ∧
     (gap_content gbuf_abncd).length =
       gbuf_abncd.cap - (gbuf_abncd.gap_end - gbuf_abncd.gap_start) ∧
     gap_length (gap_insert gbuf_abncd 'q') = gap_length gbuf_abncd + 1 ∧
     ((gap_backspace gbuf_abncd).1 = true →
       gap_length (gap_backspace gbuf_abncd).2 = gap_length gbuf_abncd - 1) ∧
     ((gap_delete gbuf_abncd).1 = true →
       gap_length (gap_delete gbuf_abncd).2 = gap_length gbuf_abncd - 1)) :=
  ⟨by decide, claim_C7_invariants gbuf_abncd 1 'q' (by decide)⟩

/-- C8: selection containment is order-independent — `begin A; extend B`
and `begin B; extend A` give identical `selection_contains` answers at
every coordinate. -/
theorem claim_C8_selection_order_independent
    (s0 s1 : selection) (ar ac br bc row col : Int) :
    selection_contains (selection_update (selection_start s0 ar ac) br bc) row col =
    selection_contains (selection_update (selection_start s1 br bc) ar ac) row col := by
  show selection_contains
      { active := true, start_row := ar, start_col := ac, end_row := br, end_col := bc }
      row col =
    selection_contains
      { active := true, start_row := br, start_col := bc, end_row := ar, end_col := ac }
      row col
  unfold selection_contains
  rw [show sel_normalize
      ({ active := true, start_row := ar, start_col := ac, end_row := br, end_col := bc } :
        selection).start_row
      ({ active := true, start_row := ar, start_col := ac, end_row := br, end_col := bc } :
        selection).start_col
      ({ active := true, start_row := ar, start_col := ac, end_row := br, end_col := bc } :
        selection).end_row
      ({ active := true, start_row := ar, start_col := ac, end_row := br, end_col := bc } :
        selection).end_col = sel_normalize ar ac br bc from rfl,
     show sel_normalize
      ({ active := true, start_row := br, start_col := bc, end_row := ar, end_col := ac } :
        selection).start_row
      ({ active := true, start_row := br, start_col := bc, end_row := ar, end_col := ac } :
        selection).start_col
      ({ active := true, start_row := br, start_col := bc, end_row := ar, end_col := ac } :
        selection).end_row
      ({ active := true, start_row := br, start_col := bc, end_row := ar, end_col := ac } :
        selection).end_col = sel_normalize br bc ar ac from rfl,
     sel_normalize_comm ar ac br bc]

/-- C9 counterexample: in the snapshot `\"` (backslash then quote), the
quote at position 1 is preceded by a backslash, yet a left-to-right pass
that reaches it with the string state off flips the state on —
`get_highlight` toggles on every quote, escaped or not. -/
theorem claim_C9_counterexample :
    (['\\', '"'] : List Char).getD 0 nullChar = '\\' ∧
    (['\\', '"'] : List Char).getD 1 nullChar = '"' ∧
    (get_highlight ['\\', '"'] 1 (some ".c".toList) false).2 = true := by
  refine ⟨by decide, by decide, by decide⟩

/-- C9 (amended): in a C-family snapshot the classifier's in-string state
is toggled by every double quote — including one preceded by a backslash —
and is never changed by a non-quote byte. -/
theorem claim_C9_quote_toggle (content : List Char) (pos : Nat)
    (filename : Option (List Char)) (s : Bool) :
    (filename_is_c filename = true → pos < content.length →
      content.getD pos nullChar = '"' →
      (get_highlight content pos filename s).2 = !s) ∧
    (content.getD pos nullChar ≠ '"' →
      (get_highlight content pos filename s).2 = s) :=
  ⟨fun hc hp hq => get_highlight_quote_toggles content pos filename s hc hp hq,
   fun hq => get_highlight_state_no_quote content pos filename s hq⟩

/-- Witness for the amended C9: the escaped quote of `\"` flips the state. -/
theorem claim_C9_witness :
    filename_is_c (some ".c".toList) = true ∧
    1 < (['\\', '"'] : List Char).length ∧
    (['\\', '"'] : List Char).getD 1 nullChar = '"' ∧
    (get_highlight ['\\', '"'] 1 (some ".c".toList) false).2 = !false :=
  ⟨by decide, by decide, by decide,
   (claim_C9_quote_toggle ['\\', '"'] 1 (some ".c".toList) false).1
     (by decide) (by decide) (by decide)⟩

/-- C10 counterexample: on the buffer `"ab"` (one row, no trailing newline)
row 0 is the last row, yet `rowcol_to_pos 0 0 = 0 ≠ 2 = L` — a row **at**
the last row does not map to the end of the buffer. -/
theorem claim_C10_counterexample :
    count_rows gbuf_ab = 1 ∧
    rowcol_to_pos gbuf_ab 0 0 ≠ gap_length gbuf_ab := by
  constructor
  · decide
  · have h1 : r2p_loop1 gbuf_ab 0 0 0 0 = (0, 0, 0) :=
      r2p_loop1_exit gbuf_ab 0 0 0 0 (by decide)
    have h2 : r2p_loop2 gbuf_ab 0 0 0 = 0 :=
      r2p_loop2_exit gbuf_ab 0 0 0 (by decide)
    show r2p_loop2 gbuf_ab 0 (r2p_loop1 gbuf_ab 0 0 0 0).1
      (r2p_loop1 gbuf_ab 0 0 0 0).2.2 ≠ gap_length gbuf_ab
    rw [h1]
    show r2p_loop2 gbuf_ab 0 0 0 ≠ gap_length gbuf_ab
    rw [h2]
    decide

/-- C10 (amended): `rowcol_to_pos` is total and always yields a position in
`[0, L]`, for every integer pair including negatives and out-of-range
values; a row at or beyond the row count yields exactly `L`. -/
theorem claim_C10_total_range (g : gapbuf) (row col : Int) :
    rowcol_to_pos g row col ≤ gap_length g ∧
    ((count_rows g : Int) ≤ row → rowcol_to_pos g row col = gap_length g) :=
  ⟨rowcol_to_pos_le g row col, fun h => rowcol_to_pos_overflow g row col h⟩

/-- Witness for the amended C10: row 5 of the single-row buffer `"ab"`
maps to the end of the buffer. -/
theorem claim_C10_witness :
    (count_rows gbuf_ab : Int) ≤ 5 ∧
    rowcol_to_pos gbuf_ab 5 3 = gap_length gbuf_ab :=
  ⟨by decide, (claim_C10_total_range gbuf_ab 5 3).2 (by decide)⟩
